import Mathlib

/-!
Shallow embedding of the schedule-analysis core of the TSG repository
(`schedule_analyzer.py`, class `ScheduleAnalyzer`).

Python numbers are modelled exactly: fractional hours become `ℚ`
(Python float literals used by this code are supplied as decimal data and
are handled with exact decimal semantics here), minutes become `ℤ`
(Python ints are unbounded), and Python's `int(...)` truncation toward
zero becomes `pyInt`.  Python's `sorted` on pairs of ints sorts by the
lexicographic order `tupLe`; since that order is total, transitive and
antisymmetric, the sorted output is the unique `tupLe`-sorted permutation
of the input, so any sorting algorithm realises it — we use the
structurally recursive `List.insertionSort`.  Python's
`sorted(list(set(...)))` produces the unique strictly increasing list
with the same members, modelled by `insertionSort` followed by `dedup`.
-/

namespace TSG

/-- Python's `int(x)` on a real value truncates toward zero. -/
def pyInt (q : ℚ) : ℤ := if 0 ≤ q then ⌊q⌋ else ⌈q⌉

/-- Embeds `ScheduleAnalyzer.convert_hour_to_minutes`:
`hours = int(hour); minutes = int((hour - hours) * 60); return hours * 60 + minutes`. -/
def convert_hour_to_minutes (hour : ℚ) : ℤ :=
  let hours : ℤ := pyInt hour
  let minutes : ℤ := pyInt ((hour - (hours : ℚ)) * 60)
  hours * 60 + minutes

/-- Zero-pad to two digits, as Python's `f"{n:02d}"` (a negative value is
printed as-is once its textual width reaches 2). -/
def pad2 (n : ℤ) : String :=
  let zero : String := "0"
  if 0 ≤ n ∧ n < 10 then zero ++ toString n else toString n

/-- Embeds `ScheduleAnalyzer.minutes_to_hhmm`: `f"{minutes // 60:02d}:{minutes % 60:02d}"`.
Python `//` and `%` with positive divisor are Euclidean division. -/
def minutes_to_hhmm (minutes : ℤ) : String :=
  pad2 (Int.ediv minutes 60) ++ ":" ++ pad2 (Int.emod minutes 60)

/-- Embeds `ScheduleAnalyzer.minutes_to_hm`: `H` when on the hour, else `H:MM`. -/
def minutes_to_hm (minutes : ℤ) : String :=
  let hours := Int.ediv minutes 60
  let mins := Int.emod minutes 60
  if mins = 0 then toString hours else toString hours ++ ":" ++ pad2 mins

/-- One outage as supplied to the analyzer: a dict with fractional-hour
fields `start_hour` and `end_hour`. -/
structure Outage where
  start_hour : ℚ
  end_hour : ℚ
deriving DecidableEq

/-- Lexicographic comparison of int pairs, as used by Python's `sorted`
on 2-tuples of ints. -/
def tupLe (a b : ℤ × ℤ) : Prop := a.1 < b.1 ∨ (a.1 = b.1 ∧ a.2 ≤ b.2)

instance : DecidableRel tupLe := fun a b => by unfold tupLe; infer_instance

instance : IsTotal (ℤ × ℤ) tupLe := ⟨by intro a b; unfold tupLe; omega⟩

instance : IsTrans (ℤ × ℤ) tupLe := ⟨by intro a b c; unfold tupLe; omega⟩

instance : IsAntisymm (ℤ × ℤ) tupLe :=
  ⟨by intro a b h₁ h₂; unfold tupLe at h₁ h₂; rw [Prod.ext_iff]; omega⟩

/-- Embeds `ScheduleAnalyzer.get_outage_intervals`: convert each outage to a
minute interval and return the sorted list. -/
def get_outage_intervals (outages : List Outage) : List (ℤ × ℤ) :=
  (outages.map fun o =>
      (convert_hour_to_minutes o.start_hour, convert_hour_to_minutes o.end_hour)).insertionSort
    tupLe

/-- The `for i in range(len(..) - 1)` loop of `get_electricity_periods`:
gaps between adjacent sorted outage intervals. -/
def gapsBetween : List (ℤ × ℤ) → List (ℤ × ℤ)
  | a :: b :: rest => (if a.2 < b.1 then [(a.2, b.1)] else []) ++ gapsBetween (b :: rest)
  | _ => []

/-- Embeds `ScheduleAnalyzer.get_electricity_periods`: invert a user's outages
into the periods when electricity is available. -/
def get_electricity_periods (outages : List Outage) : List (ℤ × ℤ) :=
  match get_outage_intervals outages with
  | [] => [(0, 24 * 60)]
  | first :: rest =>
    (if 0 < first.1 then [(0, first.1)] else []) ++
    gapsBetween (first :: rest) ++
    (if ((first :: rest).getLast (List.cons_ne_nil _ _)).2 < 24 * 60 then
      [(((first :: rest).getLast (List.cons_ne_nil _ _)).2, 24 * 60)]
    else [])

/-- One user's schedule entry: a dict with `user_id`, `username` and
`outages`. -/
structure Schedule where
  user_id : ℤ
  username : String
  outages : List Outage
deriving DecidableEq

/-- One record emitted by `find_n_minus_one_periods`.  The Python dict
key `"end"` is a Lean keyword, rendered here as `end_`. -/
structure NMinusOneRecord where
  missing_user_id : ℤ
  missing_username : String
  start : ℤ
  end_ : ℤ
  start_hhmm : String
  end_hhmm : String
  duration_minutes : ℤ
deriving DecidableEq

/-- The inner `for start, end in electricity_periods: if start <= point < end`
test of `find_common_electricity_periods`. -/
def has_power (periods : List (ℤ × ℤ)) (point : ℤ) : Bool :=
  periods.any fun p => decide (p.1 ≤ point ∧ point < p.2)

/-- The per-sub-interval test: every user has power at `point`. -/
def all_have_power (schedules : List Schedule) (point : ℤ) : Bool :=
  schedules.all fun sc => has_power (get_electricity_periods sc.outages) point

/-- Embeds `sorted(list(all_points))` where `all_points` is the Python set
`{0, 1440}` together with every boundary of every user's electricity
periods: the unique strictly increasing list of the collected values. -/
def all_points (schedules : List Schedule) : List ℤ :=
  ((0 :: 24 * 60 :: schedules.flatMap fun sc =>
      (get_electricity_periods sc.outages).flatMap fun p => [p.1, p.2]).insertionSort
    (· ≤ ·)).dedup

/-- One iteration of the sweep loop.  The accumulator holds the emitted
common periods in reverse order (most recently emitted first), so the
Python mutation `common_periods[-1] = (prev_start, next_point)` becomes a
replacement of the head. -/
def sweep_step (P : ℤ → Bool) (acc : List (ℤ × ℤ)) (pq : ℤ × ℤ) : List (ℤ × ℤ) :=
  if P pq.1 then
    match acc with
    | last :: tl => if last.2 = pq.1 then (last.1, pq.2) :: tl else pq :: last :: tl
    | [] => [pq]
  else acc

/-- The `≥ 2` branch of `find_common_electricity_periods`: sort the point
set, walk adjacent pairs, and merge qualifying sub-intervals. -/
def common_sweep (schedules : List Schedule) : List (ℤ × ℤ) :=
  let pts := all_points schedules
  ((pts.zip pts.tail).foldl (sweep_step (all_have_power schedules)) []).reverse

/-- Embeds `ScheduleAnalyzer.find_common_electricity_periods`.  The Python
function returns the pair `(common_periods, [])`. -/
def find_common_electricity_periods :
    List Schedule → List (ℤ × ℤ) × List NMinusOneRecord
  | [] => ([], [])
  | [sc] => (get_electricity_periods sc.outages, [])
  | sc₁ :: sc₂ :: rest => (common_sweep (sc₁ :: sc₂ :: rest), [])

/-- The two nested `for` loops of `find_n_minus_one_periods` for one
excluded user: overlap each of the others' common periods with each of
the excluded user's outage intervals. -/
def exclusion_records (excluded : Schedule)
    (common_periods excluded_outages : List (ℤ × ℤ)) : List NMinusOneRecord :=
  common_periods.flatMap fun other =>
    excluded_outages.flatMap fun outage =>
      let overlap_start := max other.1 outage.1
      let overlap_end := min other.2 outage.2
      if overlap_start < overlap_end then
        [{ missing_user_id := excluded.user_id
           missing_username := excluded.username
           start := overlap_start
           end_ := overlap_end
           start_hhmm := minutes_to_hhmm overlap_start
           end_hhmm := minutes_to_hhmm overlap_end
           duration_minutes := overlap_end - overlap_start }]
      else []

/-- Embeds `ScheduleAnalyzer.find_n_minus_one_periods`: for every user in turn,
the periods where everyone else has power while that user has an outage.
`schedules[:i] + schedules[i+1:]` is `take i ++ drop (i+1)`. -/
def find_n_minus_one_periods (schedules : List Schedule) : List NMinusOneRecord :=
  if schedules.length < 2 then []
  else schedules.enum.flatMap fun ie =>
    exclusion_records ie.2
      (find_common_electricity_periods
        (schedules.take ie.1 ++ schedules.drop (ie.1 + 1))).1
      (get_outage_intervals ie.2.outages)

/-- Embeds `ScheduleAnalyzer.format_report`. -/
def format_report (day_name : String) (common_periods : List (ℤ × ℤ)) : String :=
  if common_periods = [] then
    day_name ++ ": ❌ Нет времени, когда у всех свет одновременно"
  else
    let newline : String := "\n"
    String.intercalate newline ((day_name ++ ": ✅") ::
      common_periods.map fun p =>
        "  З " ++ minutes_to_hm p.1 ++ " до " ++ minutes_to_hm p.2)

/-! ## Specification-side notions -/

/-- Minute `m` lies inside one of the half-open intervals of `I`. -/
def covers (I : List (ℤ × ℤ)) (m : ℤ) : Prop := ∃ p ∈ I, p.1 ≤ m ∧ m < p.2

instance (I : List (ℤ × ℤ)) (m : ℤ) : Decidable (covers I m) := by
  unfold covers; infer_instance

/-- A minute interval is well-formed: `0 ≤ start < end ≤ 1440`. -/
def wfI (p : ℤ × ℤ) : Prop := 0 ≤ p.1 ∧ p.1 < p.2 ∧ p.2 ≤ 1440

instance (p : ℤ × ℤ) : Decidable (wfI p) := by unfold wfI; infer_instance

/-- Two half-open integer intervals share no minute.  (For intervals
this is equivalent to `¬∃ m, m ∈ p ∧ m ∈ q`.) -/
def disjI (p q : ℤ × ℤ) : Prop := min p.2 q.2 ≤ max p.1 q.1

instance (p q : ℤ × ℤ) : Decidable (disjI p q) := by unfold disjI; infer_instance

/-! ## Sorting the outage intervals -/

lemma get_outage_intervals_sorted (outages : List Outage) :
    (get_outage_intervals outages).Sorted tupLe :=
  List.sorted_insertionSort tupLe _

lemma get_outage_intervals_perm (outages : List Outage) :
    (get_outage_intervals outages).Perm
      (outages.map fun o =>
        (convert_hour_to_minutes o.start_hour, convert_hour_to_minutes o.end_hour)) :=
  List.perm_insertionSort tupLe _

/-- C7: the Availability Deriver is insensitive to the order in which a
user's outages are supplied: any permutation of the outage list yields
identical output. -/
theorem get_electricity_periods_perm_invariant (l₁ l₂ : List Outage) (hp : l₁.Perm l₂) :
    get_electricity_periods l₁ = get_electricity_periods l₂ := by
  have h : get_outage_intervals l₁ = get_outage_intervals l₂ :=
    List.eq_of_perm_of_sorted
      ((get_outage_intervals_perm l₁).trans
        ((hp.map _).trans (get_outage_intervals_perm l₂).symm))
      (get_outage_intervals_sorted l₁) (get_outage_intervals_sorted l₂)
  unfold get_electricity_periods
  rw [h]

/-- Witness for C7: swapping two outages leaves the availability output
unchanged. -/
theorem get_electricity_periods_perm_invariant_witness :
    get_electricity_periods [⟨0, 1⟩, ⟨2, 3⟩] = get_electricity_periods [⟨2, 3⟩, ⟨0, 1⟩] :=
  get_electricity_periods_perm_invariant _ _ (List.Perm.swap _ _ _)

/-! ## The availability inverter as a single recursion -/

/-- The body of `get_electricity_periods` on the sorted interval list,
expressed as one forward recursion: `lo` is the end of the previous
outage (initially `0`). -/
def invertFrom (lo : ℤ) : List (ℤ × ℤ) → List (ℤ × ℤ)
  | [] => if lo < 24 * 60 then [(lo, 24 * 60)] else []
  | p :: rest => (if lo < p.1 then [(lo, p.1)] else []) ++ invertFrom p.2 rest

lemma gaps_invert (p : ℤ × ℤ) (l : List (ℤ × ℤ)) :
    gapsBetween (p :: l) ++
      (if ((p :: l).getLast (List.cons_ne_nil _ _)).2 < 24 * 60 then
        [(((p :: l).getLast (List.cons_ne_nil _ _)).2, 24 * 60)]
      else []) =
    invertFrom p.2 l := by
  induction l generalizing p with
  | nil => simp [gapsBetween, invertFrom]
  | cons q l ih =>
    have h1 : gapsBetween (p :: q :: l) =
        (if p.2 < q.1 then [(p.2, q.1)] else []) ++ gapsBetween (q :: l) := rfl
    have h2 : (p :: q :: l).getLast (List.cons_ne_nil _ _) =
        (q :: l).getLast (List.cons_ne_nil _ _) := List.getLast_cons _
    rw [h1, h2, List.append_assoc, ih q]
    rfl

lemma get_electricity_periods_eq_invert (outages : List Outage) :
    get_electricity_periods outages = invertFrom 0 (get_outage_intervals outages) := by
  unfold get_electricity_periods
  split
  next heq => rw [heq]; simp [invertFrom]
  next first rest heq =>
    rw [heq, List.append_assoc, gaps_invert first rest]
    rfl

/-! ## Coverage of interval lists -/

lemma covers_nil (m : ℤ) : ¬ covers [] m := by simp [covers]

lemma covers_cons {p : ℤ × ℤ} {l : List (ℤ × ℤ)} {m : ℤ} :
    covers (p :: l) m ↔ (p.1 ≤ m ∧ m < p.2) ∨ covers l m := by
  simp [covers, or_and_right, exists_or]

lemma covers_append {A B : List (ℤ × ℤ)} {m : ℤ} :
    covers (A ++ B) m ↔ covers A m ∨ covers B m := by
  simp [covers, List.mem_append, or_and_right, exists_or]

/-! ## The forward-chain structure of well-formed sorted outages -/

/-- The sorted outage intervals form a forward chain starting at `lo`:
each interval is proper and starts no earlier than the previous end. -/
def ChainFrom (lo : ℤ) : List (ℤ × ℤ) → Prop
  | [] => True
  | p :: rest => lo ≤ p.1 ∧ p.1 < p.2 ∧ ChainFrom p.2 rest

lemma chainFrom_start_le : ∀ (l : List (ℤ × ℤ)) (lo : ℤ), ChainFrom lo l →
    ∀ p ∈ l, lo ≤ p.1 := by
  intro l
  induction l with
  | nil => intro lo _ p hp; cases hp
  | cons q rest ih =>
    intro lo h p hp
    rcases List.mem_cons.1 hp with rfl | hp'
    · exact h.1
    · have h2 := ih q.2 h.2.2 p hp'
      have h3 := h.1
      have h4 := h.2.1
      omega

lemma invertFrom_start_le : ∀ (l : List (ℤ × ℤ)) (lo : ℤ), ChainFrom lo l →
    ∀ w ∈ invertFrom lo l, lo ≤ w.1 := by
  intro l
  induction l with
  | nil =>
    intro lo _ w hw
    unfold invertFrom at hw
    split at hw
    · rcases List.mem_singleton.1 hw with rfl
      exact le_rfl
    · cases hw
  | cons q rest ih =>
    intro lo h w hw
    unfold invertFrom at hw
    rcases List.mem_append.1 hw with hw' | hw'
    · split at hw'
      · rcases List.mem_singleton.1 hw' with rfl
        exact le_rfl
      · cases hw'
    · have h5 := ih q.2 h.2.2 w hw'
      have h3 := h.1
      have h4 := h.2.1
      omega

/-- Partition: under the forward chain invariant, a minute of the day is
covered by the outage intervals exactly when it is not covered by the
inverted availability windows. -/
lemma invertFrom_partition : ∀ (l : List (ℤ × ℤ)) (lo : ℤ), ChainFrom lo l →
    ∀ m : ℤ, lo ≤ m → m < 24 * 60 →
      (covers l m ↔ ¬ covers (invertFrom lo l) m) := by
  intro l
  induction l with
  | nil =>
    intro lo _ m hm hm'
    unfold invertFrom
    rw [if_pos (by omega)]
    simp [covers]
    omega
  | cons q rest ih =>
    intro lo h m hm hm'
    obtain ⟨hlo, hq, hrest⟩ := h
    unfold invertFrom
    rw [covers_cons, covers_append]
    by_cases hc1 : m < q.1
    · -- before the first outage: available, not in any outage
      have hres : ¬ covers rest m := by
        rintro ⟨p, hp, hp1, hp2⟩
        have := chainFrom_start_le rest q.2 hrest p hp
        omega
      have hfirst : covers (if lo < q.1 then [(lo, q.1)] else []) m := by
        rw [if_pos (by omega)]
        exact ⟨(lo, q.1), List.mem_singleton.2 rfl, show lo ≤ m ∧ m < q.1 by omega⟩
      constructor
      · rintro (h' | h')
        · omega
        · exact absurd h' hres
      · intro h'
        exact absurd (Or.inl hfirst) h'
    · by_cases hc2 : m < q.2
      · -- inside the first outage: not available
        have hinv : ¬ covers (invertFrom q.2 rest) m := by
          rintro ⟨p, hp, hp1, hp2⟩
          have := invertFrom_start_le rest q.2 hrest p hp
          omega
        have hfirst : ¬ covers (if lo < q.1 then [(lo, q.1)] else []) m := by
          split
          · rintro ⟨p, hp, hp1, hp2⟩
            rcases List.mem_singleton.1 hp with rfl
            simp at hp1 hp2
            omega
          · exact covers_nil m
        constructor
        · rintro - h'
          rcases h' with h' | h'
          · exact hfirst h'
          · exact hinv h'
        · intro h'
          exact Or.inl ⟨by omega, hc2⟩
      · -- past the first outage: recurse
        have hqm : q.2 ≤ m := by omega
        have hfirst : ¬ covers (if lo < q.1 then [(lo, q.1)] else []) m := by
          split
          · rintro ⟨p, hp, hp1, hp2⟩
            rcases List.mem_singleton.1 hp with rfl
            simp at hp1 hp2
            omega
          · exact covers_nil m
        have hih := ih q.2 hrest m hqm hm'
        constructor
        · rintro (h' | h') h''
          · omega
          · rcases h'' with h'' | h''
            · exact hfirst h''
            · exact (hih.1 h') h''
        · intro h'
          refine Or.inr (hih.2 ?_)
          intro h''
          exact h' (Or.inr h'')

/-- Well-formed, pairwise disjoint sorted intervals form a forward
chain. -/
lemma wf_chainFrom : ∀ (l : List (ℤ × ℤ)), l.Sorted tupLe →
    (∀ p ∈ l, p.1 < p.2) → l.Pairwise disjI →
    ∀ lo, (∀ p ∈ l, lo ≤ p.1) → ChainFrom lo l := by
  intro l
  induction l with
  | nil => intro _ _ _ lo _; trivial
  | cons q rest ih =>
    intro hs hwf hd lo hlo
    have hhd := (List.sorted_cons.1 hs).1
    have hdj := (List.pairwise_cons.1 hd).1
    refine ⟨hlo q (List.mem_cons_self q rest), hwf q (List.mem_cons_self q rest), ?_⟩
    apply ih (List.sorted_cons.1 hs).2 (fun p hp => hwf p (List.mem_cons_of_mem _ hp))
      (List.pairwise_cons.1 hd).2 q.2
    intro p hp
    have h1 := hhd p hp
    have h2 := hdj p hp
    have h3 := hwf p (List.mem_cons_of_mem _ hp)
    have h4 := hwf q (List.mem_cons_self q rest)
    unfold tupLe at h1
    unfold disjI at h2
    omega

/-- Every window produced by the inverter is non-degenerate, whatever
the input. -/
lemma invertFrom_pos : ∀ (l : List (ℤ × ℤ)) (lo : ℤ), ∀ w ∈ invertFrom lo l, w.1 < w.2 := by
  intro l
  induction l with
  | nil =>
    intro lo w hw
    unfold invertFrom at hw
    by_cases hlo : lo < 24 * 60
    · rw [if_pos hlo] at hw
      rcases List.mem_singleton.1 hw with rfl
      exact hlo
    · rw [if_neg hlo] at hw
      cases hw
  | cons q rest ih =>
    intro lo w hw
    unfold invertFrom at hw
    rcases List.mem_append.1 hw with hw' | hw'
    · by_cases hlo : lo < q.1
      · rw [if_pos hlo] at hw'
        rcases List.mem_singleton.1 hw' with rfl
        exact hlo
      · rw [if_neg hlo] at hw'
        cases hw'
    · exact ih q.2 w hw'

/-- Every window start is at least `lo`, or at least the end of some
input interval. -/
lemma invertFrom_start_lb : ∀ (l : List (ℤ × ℤ)) (lo : ℤ),
    ∀ w ∈ invertFrom lo l, lo ≤ w.1 ∨ ∃ p ∈ l, p.2 ≤ w.1 := by
  intro l
  induction l with
  | nil =>
    intro lo w hw
    unfold invertFrom at hw
    by_cases hlo : lo < 24 * 60
    · rw [if_pos hlo] at hw
      rcases List.mem_singleton.1 hw with rfl
      exact Or.inl le_rfl
    · rw [if_neg hlo] at hw
      cases hw
  | cons q rest ih =>
    intro lo w hw
    unfold invertFrom at hw
    rcases List.mem_append.1 hw with hw' | hw'
    · by_cases hlo : lo < q.1
      · rw [if_pos hlo] at hw'
        rcases List.mem_singleton.1 hw' with rfl
        exact Or.inl le_rfl
      · rw [if_neg hlo] at hw'
        cases hw'
    · rcases ih q.2 w hw' with h | ⟨p, hp, hple⟩
      · exact Or.inr ⟨q, List.mem_cons_self q rest, h⟩
      · exact Or.inr ⟨p, List.mem_cons_of_mem _ hp, hple⟩

/-- Every window end is at most `1440` as long as all interval starts
are. -/
lemma invertFrom_end_ub : ∀ (l : List (ℤ × ℤ)) (lo : ℤ),
    (∀ p ∈ l, p.1 ≤ 24 * 60) → ∀ w ∈ invertFrom lo l, w.2 ≤ 24 * 60 := by
  intro l
  induction l with
  | nil =>
    intro lo _ w hw
    unfold invertFrom at hw
    by_cases hlo : lo < 24 * 60
    · rw [if_pos hlo] at hw
      rcases List.mem_singleton.1 hw with rfl
      exact le_rfl
    · rw [if_neg hlo] at hw
      cases hw
  | cons q rest ih =>
    intro lo hub w hw
    unfold invertFrom at hw
    rcases List.mem_append.1 hw with hw' | hw'
    · by_cases hlo : lo < q.1
      · rw [if_pos hlo] at hw'
        rcases List.mem_singleton.1 hw' with rfl
        exact hub q (List.mem_cons_self q rest)
      · rw [if_neg hlo] at hw'
        cases hw'
    · exact ih q.2 (fun p hp => hub p (List.mem_cons_of_mem _ hp)) w hw'

/-- If the sorted input intervals are all proper (`start < end`), the
inverted windows never touch: each window ends no later than the next
one starts. -/
lemma invertFrom_pairwise : ∀ (l : List (ℤ × ℤ)) (lo : ℤ),
    l.Sorted tupLe → (∀ p ∈ l, p.1 < p.2) →
    (invertFrom lo l).Pairwise (fun a b => a.2 ≤ b.1) := by
  intro l
  induction l with
  | nil =>
    intro lo _ _
    unfold invertFrom
    split <;> simp
  | cons q rest ih =>
    intro lo hs hwf
    have hs' : rest.Sorted tupLe := (List.sorted_cons.1 hs).2
    have hhd : ∀ p ∈ rest, tupLe q p := (List.sorted_cons.1 hs).1
    have hq : q.1 < q.2 := hwf q (List.mem_cons_self q rest)
    have hrest_wf : ∀ p ∈ rest, p.1 < p.2 :=
      fun p hp => hwf p (List.mem_cons_of_mem _ hp)
    have hlb : ∀ w ∈ invertFrom q.2 rest, q.1 ≤ w.1 := by
      intro w hw
      rcases invertFrom_start_lb rest q.2 w hw with h | ⟨p, hp, hple⟩
      · omega
      · have h1 := hhd p hp
        have h2 := hrest_wf p hp
        unfold tupLe at h1
        omega
    unfold invertFrom
    refine List.pairwise_append.2 ⟨?_, ih q.2 hs' hrest_wf, ?_⟩
    · split <;> simp
    · intro a ha b hb
      by_cases hlo : lo < q.1
      · rw [if_pos hlo] at ha
        rcases List.mem_singleton.1 ha with rfl
        exact hlb b hb
      · rw [if_neg hlo] at ha
        cases ha

/-- C2: for a well-formed, pairwise disjoint outage list, the outage
intervals and the availability windows of `get_electricity_periods`
exactly partition `[0, 1440)`: inside the day a minute is in an outage
iff it is not in a window, and outside the day it is in neither. -/
theorem availability_partition (outages : List Outage)
    (hwf : ∀ p ∈ get_outage_intervals outages, wfI p)
    (hdisj : (get_outage_intervals outages).Pairwise disjI) :
    (∀ m : ℤ, 0 ≤ m → m < 1440 →
      (covers (get_outage_intervals outages) m ↔
        ¬ covers (get_electricity_periods outages) m)) ∧
    (∀ m : ℤ, m < 0 ∨ 1440 ≤ m →
      ¬ covers (get_outage_intervals outages) m ∧
      ¬ covers (get_electricity_periods outages) m) := by
  have hchain : ChainFrom 0 (get_outage_intervals outages) :=
    wf_chainFrom _ (get_outage_intervals_sorted outages)
      (fun p hp => (hwf p hp).2.1) hdisj 0 (fun p hp => (hwf p hp).1)
  constructor
  · intro m h0 h1440
    rw [get_electricity_periods_eq_invert]
    exact invertFrom_partition _ 0 hchain m h0 (by omega)
  · intro m hm
    constructor
    · rintro ⟨p, hp, hp1, hp2⟩
      have := hwf p hp
      unfold wfI at this
      omega
    · rw [get_electricity_periods_eq_invert]
      rintro ⟨w, hw, hw1, hw2⟩
      have hge := invertFrom_start_le _ 0 hchain w hw
      have hub := invertFrom_end_ub _ 0
        (fun p hp => by have := hwf p hp; unfold wfI at this; omega) w hw
      omega

/-! ## Time conversion -/

/-- On nonnegative input the two independent truncations collapse to a
single floor of the minute total. -/
lemma convert_eq_floor (q : ℚ) (hq : 0 ≤ q) : convert_hour_to_minutes q = ⌊q * 60⌋ := by
  have h1 : (0 : ℚ) ≤ (q - (⌊q⌋ : ℚ)) * 60 :=
    mul_nonneg (sub_nonneg.2 (Int.floor_le q)) (by norm_num)
  simp only [convert_hour_to_minutes, pyInt]
  rw [if_pos hq, if_pos h1, sub_mul]
  have h2 : ((⌊q⌋ : ℚ)) * 60 = ((⌊q⌋ * 60 : ℤ) : ℚ) := by push_cast; ring
  rw [h2, Int.floor_sub_int]
  ring

/-- C5: `convert_hour_to_minutes` truncates the integer-hour part and the
fractional-minute part independently: for `h ∈ [0, 24]` the result is
`⌊h⌋ * 60 + ⌊(h - ⌊h⌋) * 60⌋`; in particular `1.999` hours give `119`
minutes (not `120`), `0` gives `0`, and `24` gives `1440`. -/
theorem convert_hour_to_minutes_truncates (h : ℚ) (h0 : 0 ≤ h) (_h24 : h ≤ 24) :
    convert_hour_to_minutes h = ⌊h⌋ * 60 + ⌊(h - (⌊h⌋ : ℚ)) * 60⌋ ∧
    convert_hour_to_minutes 1.999 = 119 ∧
    convert_hour_to_minutes 0 = 0 ∧
    convert_hour_to_minutes 24 = 1440 := by
  refine ⟨?_, ?_, ?_, ?_⟩
  · have h1 : (0 : ℚ) ≤ (h - (⌊h⌋ : ℚ)) * 60 :=
      mul_nonneg (sub_nonneg.2 (Int.floor_le h)) (by norm_num)
    simp only [convert_hour_to_minutes, pyInt]
    rw [if_pos h0, if_pos h1]
  · rw [convert_eq_floor _ (by norm_num)]; norm_num
  · rw [convert_eq_floor _ le_rfl]; norm_num
  · rw [convert_eq_floor _ (by norm_num)]; norm_num

/-- Witness for C5 at `h = 1.999`. -/
theorem convert_hour_to_minutes_truncates_witness :
    convert_hour_to_minutes 1.999 =
      ⌊(1.999 : ℚ)⌋ * 60 + ⌊((1.999 : ℚ) - ((⌊(1.999 : ℚ)⌋ : ℤ) : ℚ)) * 60⌋ := by
  have := (convert_hour_to_minutes_truncates 1.999 (by norm_num) (by norm_num)).1
  exact this

/-! ## Degenerate inputs of the intersection engine -/

/-- C3: with no schedule entries `find_common_electricity_periods`
returns the empty result, and with exactly one entry it returns that
user's availability windows unchanged (and no error is possible). -/
theorem find_common_degenerate (sc : Schedule) :
    find_common_electricity_periods [] = ([], []) ∧
    find_common_electricity_periods [sc] = (get_electricity_periods sc.outages, []) :=
  ⟨rfl, rfl⟩

/-- C9: the second component of the pair returned by
`find_common_electricity_periods` is the empty list on every input; the
analysis result is carried entirely in the first component. -/
theorem find_common_snd_eq_nil (schedules : List Schedule) :
    (find_common_electricity_periods schedules).2 = [] := by
  match schedules with
  | [] => rfl
  | [sc] => rfl
  | sc₁ :: sc₂ :: rest => rfl

/-! ## The sorted boundary-point list -/

lemma sorted_lt_of_sorted_le_nodup {l : List ℤ} (hs : l.Pairwise (· ≤ ·)) (hn : l.Nodup) :
    l.Pairwise (· < ·) :=
  (hs.and hn).imp fun h => lt_of_le_of_ne h.1 h.2

lemma all_points_sorted (schedules : List Schedule) :
    (all_points schedules).Pairwise (· < ·) := by
  unfold all_points
  refine sorted_lt_of_sorted_le_nodup ?_ (List.nodup_dedup _)
  exact List.Pairwise.sublist (List.dedup_sublist _) (List.sorted_insertionSort _ _)

lemma mem_all_points {schedules : List Schedule} {x : ℤ} :
    x ∈ all_points schedules ↔
      x = 0 ∨ x = 24 * 60 ∨ ∃ sc ∈ schedules, ∃ p ∈ get_electricity_periods sc.outages,
        x = p.1 ∨ x = p.2 := by
  unfold all_points
  rw [List.mem_dedup, (List.perm_insertionSort _ _).mem_iff]
  simp [List.mem_flatMap]

/-! ## Adjacent pairs of a strictly sorted list -/

lemma zip_tail_mem : ∀ (pts : List ℤ) (pq : ℤ × ℤ), pq ∈ pts.zip pts.tail →
    pq.1 ∈ pts ∧ pq.2 ∈ pts := by
  intro pts
  induction pts with
  | nil => intro pq h; simp at h
  | cons t rest ih =>
    rcases rest with _ | ⟨t', rest'⟩
    · intro pq h; simp at h
    · intro pq h
      rw [List.tail_cons, List.zip_cons_cons] at h
      rcases List.mem_cons.1 h with rfl | h'
      · exact ⟨List.mem_cons_self _ _,
          List.mem_cons_of_mem _ (List.mem_cons_self _ _)⟩
      · have h'' := ih pq (by rw [List.tail_cons]; exact h')
        exact ⟨List.mem_cons_of_mem _ h''.1, List.mem_cons_of_mem _ h''.2⟩

lemma gap_adjacent : ∀ (pts : List ℤ), pts.Pairwise (· < ·) →
    ∀ pq ∈ pts.zip pts.tail, ∀ x ∈ pts, x ≤ pq.1 ∨ pq.2 ≤ x := by
  intro pts
  induction pts with
  | nil => intro _ pq h; simp at h
  | cons t rest ih =>
    rcases rest with _ | ⟨t', rest'⟩
    · intro _ pq h; simp at h
    · intro hs pq hpq x hx
      rw [List.tail_cons, List.zip_cons_cons] at hpq
      have hhd : ∀ y ∈ t' :: rest', t < y := (List.pairwise_cons.1 hs).1
      have hs' := (List.pairwise_cons.1 hs).2
      rcases List.mem_cons.1 hpq with rfl | hpq'
      · rcases List.mem_cons.1 hx with rfl | hx'
        · exact Or.inl le_rfl
        · rcases List.mem_cons.1 hx' with rfl | hx''
          · exact Or.inr le_rfl
          · exact Or.inr (le_of_lt ((List.pairwise_cons.1 hs').1 x hx''))
      · rcases List.mem_cons.1 hx with rfl | hx'
        · have hmem := (zip_tail_mem (t' :: rest') pq
            (by rw [List.tail_cons]; exact hpq')).1
          exact Or.inl (le_of_lt (hhd _ hmem))
        · exact ih hs' pq (by rw [List.tail_cons]; exact hpq') x hx'

lemma gap_lt : ∀ (pts : List ℤ), pts.Pairwise (· < ·) →
    ∀ pq ∈ pts.zip pts.tail, pq.1 < pq.2 := by
  intro pts
  induction pts with
  | nil => intro _ pq h; simp at h
  | cons t rest ih =>
    rcases rest with _ | ⟨t', rest'⟩
    · intro _ pq h; simp at h
    · intro hs pq hpq
      rw [List.tail_cons, List.zip_cons_cons] at hpq
      rcases List.mem_cons.1 hpq with rfl | hpq'
      · exact (List.pairwise_cons.1 hs).1 t' (List.mem_cons_self _ _)
      · exact ih (List.pairwise_cons.1 hs).2 pq (by rw [List.tail_cons]; exact hpq')

lemma exists_gap : ∀ (pts : List ℤ), pts.Pairwise (· < ·) →
    ∀ m : ℤ, (∃ x ∈ pts, x ≤ m) → (∃ y ∈ pts, m < y) →
    ∃ pq ∈ pts.zip pts.tail, pq.1 ≤ m ∧ m < pq.2 := by
  intro pts
  induction pts with
  | nil => rintro _ m ⟨x, hx, -⟩ _; cases hx
  | cons t rest ih =>
    rcases rest with _ | ⟨t', rest'⟩
    · rintro _ m ⟨x, hx, hxm⟩ ⟨y, hy, hym⟩
      rcases List.mem_singleton.1 hx with rfl
      rcases List.mem_singleton.1 hy with rfl
      omega
    · rintro hs m hx hy
      have hhd : ∀ y ∈ t' :: rest', t < y := (List.pairwise_cons.1 hs).1
      have hs' := (List.pairwise_cons.1 hs).2
      by_cases hm : m < t'
      · obtain ⟨x, hxmem, hxm⟩ := hx
        have htm : t ≤ m := by
          rcases List.mem_cons.1 hxmem with rfl | hx'
          · exact hxm
          · rcases List.mem_cons.1 hx' with rfl | hx''
            · have := hhd x (List.mem_cons_self _ _)
              omega
            · have h1 := hhd x hx'
              omega
        refine ⟨(t, t'), ?_, htm, hm⟩
        rw [List.tail_cons, List.zip_cons_cons]
        exact List.mem_cons_self _ _
      · push_neg at hm
        obtain ⟨y, hymem, hym⟩ := hy
        have hy' : ∃ y ∈ t' :: rest', m < y := by
          rcases List.mem_cons.1 hymem with rfl | h'
          · have := hhd t' (List.mem_cons_self _ _)
            omega
          · exact ⟨y, h', hym⟩
        obtain ⟨pq, hpq, h1, h2⟩ :=
          ih hs' m ⟨t', List.mem_cons_self _ _, hm⟩ hy'
        refine ⟨pq, ?_, h1, h2⟩
        rw [List.tail_cons, List.zip_cons_cons]
        exact List.mem_cons_of_mem _ (by rwa [List.tail_cons] at hpq)

/-- Sampling: a half-open interval whose two endpoints are boundary
points contains the left end of an adjacent boundary gap iff it contains
any point of that gap. -/
lemma sample_iff (pts : List ℤ) (hs : pts.Pairwise (· < ·)) (pq : ℤ × ℤ)
    (hpq : pq ∈ pts.zip pts.tail) (m : ℤ) (hm1 : pq.1 ≤ m) (hm2 : m < pq.2)
    (a b : ℤ) (ha : a ∈ pts) (hb : b ∈ pts) :
    (a ≤ pq.1 ∧ pq.1 < b) ↔ (a ≤ m ∧ m < b) := by
  have hadj_a := gap_adjacent pts hs pq hpq a ha
  have hadj_b := gap_adjacent pts hs pq hpq b hb
  omega

/-! ## The sweep accumulator -/

lemma covers_reverse {l : List (ℤ × ℤ)} {m : ℤ} : covers l.reverse m ↔ covers l m := by
  simp [covers]

/-- One sweep step preserves the accumulator invariants (the accumulator
lists emitted periods most-recent-first) and adds exactly the qualifying
sub-interval `[t₀, t₁)` to the covered set. -/
lemma sweep_step_inv (P : ℤ → Bool) (acc : List (ℤ × ℤ)) (t₀ t₁ : ℤ) (ht : t₀ < t₁)
    (hpos : ∀ p ∈ acc, p.1 < p.2)
    (hchain : acc.Pairwise (fun a b => b.2 < a.1))
    (hbound : ∀ p ∈ acc, p.2 ≤ t₀) :
    (∀ p ∈ sweep_step P acc (t₀, t₁), p.1 < p.2) ∧
    (sweep_step P acc (t₀, t₁)).Pairwise (fun a b => b.2 < a.1) ∧
    (∀ p ∈ sweep_step P acc (t₀, t₁), p.2 ≤ t₁) ∧
    (∀ m : ℤ, covers (sweep_step P acc (t₀, t₁)) m ↔
       covers acc m ∨ (P t₀ = true ∧ t₀ ≤ m ∧ m < t₁)) := by
  by_cases hP : P t₀ = true
  · rcases acc with _ | ⟨⟨s, e⟩, tl⟩
    · unfold sweep_step
      dsimp only
      rw [if_pos hP]
      refine ⟨?_, ?_, ?_, ?_⟩
      · intro p hp
        rcases List.mem_singleton.1 hp with rfl
        exact ht
      · simp
      · intro p hp
        rcases List.mem_singleton.1 hp with rfl
        exact le_rfl
      · intro m
        rw [covers_cons]
        constructor
        · rintro (⟨h1, h2⟩ | h)
          · exact Or.inr ⟨hP, h1, h2⟩
          · simp [covers] at h
        · rintro (h | ⟨-, h1, h2⟩)
          · simp [covers] at h
          · exact Or.inl ⟨h1, h2⟩
    · have hse : s < e := hpos (s, e) (List.mem_cons_self _ _)
      have het : e ≤ t₀ := hbound (s, e) (List.mem_cons_self _ _)
      have htl_pos : ∀ p ∈ tl, p.1 < p.2 :=
        fun p hp => hpos p (List.mem_cons_of_mem _ hp)
      have htl_bd : ∀ p ∈ tl, p.2 ≤ t₀ :=
        fun p hp => hbound p (List.mem_cons_of_mem _ hp)
      have htl_lt : ∀ p ∈ tl, p.2 < s := fun p hp =>
        (List.pairwise_cons.1 hchain).1 p hp
      have htl_pw := (List.pairwise_cons.1 hchain).2
      unfold sweep_step
      dsimp only
      rw [if_pos hP]
      by_cases he : e = t₀
      · rw [if_pos he]
        refine ⟨?_, ?_, ?_, ?_⟩
        · intro p hp
          rcases List.mem_cons.1 hp with rfl | hp'
          · show s < t₁
            omega
          · exact htl_pos p hp'
        · exact List.pairwise_cons.2 ⟨fun p hp => htl_lt p hp, htl_pw⟩
        · intro p hp
          rcases List.mem_cons.1 hp with rfl | hp'
          · exact le_rfl
          · have := htl_bd p hp'
            omega
        · intro m
          rw [covers_cons, covers_cons]
          constructor
          · rintro (⟨h1, h2⟩ | h)
            · rcases lt_or_le m t₀ with hm | hm
              · exact Or.inl (Or.inl ⟨h1, by omega⟩)
              · exact Or.inr ⟨hP, hm, h2⟩
            · exact Or.inl (Or.inr h)
          · rintro ((⟨h1, h2⟩ | h) | ⟨-, h1, h2⟩)
            · exact Or.inl ⟨h1, by omega⟩
            · exact Or.inr h
            · exact Or.inl ⟨by omega, h2⟩
      · rw [if_neg he]
        refine ⟨?_, ?_, ?_, ?_⟩
        · intro p hp
          rcases List.mem_cons.1 hp with rfl | hp'
          · exact ht
          · exact hpos p hp'
        · refine List.pairwise_cons.2 ⟨?_, hchain⟩
          intro p hp
          rcases List.mem_cons.1 hp with rfl | hp'
          · show e < t₀
            omega
          · have := htl_lt p hp'
            omega
        · intro p hp
          rcases List.mem_cons.1 hp with rfl | hp'
          · exact le_rfl
          · have := hbound p hp'
            omega
        · intro m
          rw [covers_cons]
          constructor
          · rintro (⟨h1, h2⟩ | h)
            · exact Or.inr ⟨hP, h1, h2⟩
            · exact Or.inl h
          · rintro (h | ⟨-, h1, h2⟩)
            · exact Or.inr h
            · exact Or.inl ⟨h1, h2⟩
  · unfold sweep_step
    dsimp only
    rw [if_neg hP]
    refine ⟨hpos, hchain, fun p hp => le_trans (hbound p hp) (le_of_lt ht), ?_⟩
    intro m
    simp [hP]

/-- Folding the sweep step over the adjacent pairs of a strictly sorted
point list: the result keeps the accumulator invariants and covers
exactly the previously covered minutes plus the qualifying gaps. -/
lemma sweep_foldl (P : ℤ → Bool) :
    ∀ (pts : List ℤ), pts.Pairwise (· < ·) →
    ∀ (acc : List (ℤ × ℤ)),
      (∀ p ∈ acc, p.1 < p.2) →
      acc.Pairwise (fun a b => b.2 < a.1) →
      (∀ p ∈ acc, ∀ t ∈ pts, p.2 ≤ t) →
      (∀ p ∈ (pts.zip pts.tail).foldl (sweep_step P) acc, p.1 < p.2) ∧
      ((pts.zip pts.tail).foldl (sweep_step P) acc).Pairwise (fun a b => b.2 < a.1) ∧
      (∀ m : ℤ, covers ((pts.zip pts.tail).foldl (sweep_step P) acc) m ↔
        covers acc m ∨ ∃ pq ∈ pts.zip pts.tail, P pq.1 = true ∧ pq.1 ≤ m ∧ m < pq.2) := by
  intro pts
  induction pts with
  | nil =>
    intro _ acc h1 h2 _
    refine ⟨by simpa using h1, by simpa using h2, fun m => by simp⟩
  | cons t₀ rest ih =>
    rcases rest with _ | ⟨t₁, rest'⟩
    · intro _ acc h1 h2 _
      refine ⟨by simpa using h1, by simpa using h2, fun m => by simp⟩
    · intro hs acc h1 h2 h3
      have hlt : t₀ < t₁ := (List.pairwise_cons.1 hs).1 t₁ (List.mem_cons_self _ _)
      have hs' := (List.pairwise_cons.1 hs).2
      have hstep := sweep_step_inv P acc t₀ t₁ hlt h1 h2
        (fun p hp => h3 p hp t₀ (List.mem_cons_self _ _))
      obtain ⟨s1, s2, s3, s4⟩ := hstep
      have hbd' : ∀ p ∈ sweep_step P acc (t₀, t₁), ∀ t ∈ t₁ :: rest', p.2 ≤ t := by
        intro p hp t ht
        rcases List.mem_cons.1 ht with rfl | ht'
        · exact s3 p hp
        · have := (List.pairwise_cons.1 hs').1 t ht'
          have := s3 p hp
          omega
      have hrec := ih hs' (sweep_step P acc (t₀, t₁)) s1 s2 hbd'
      simp only [List.tail_cons] at hrec
      rw [List.tail_cons, List.zip_cons_cons, List.foldl_cons]
      refine ⟨hrec.1, hrec.2.1, ?_⟩
      intro m
      rw [hrec.2.2 m, s4 m]
      constructor
      · rintro ((h | h) | ⟨pq, hpq, hq⟩)
        · exact Or.inl h
        · exact Or.inr ⟨(t₀, t₁), List.mem_cons_self _ _, h.1, h.2⟩
        · exact Or.inr ⟨pq, List.mem_cons_of_mem _ hpq, hq⟩
      · rintro (h | ⟨pq, hpq, hq⟩)
        · exact Or.inl (Or.inl h)
        · rcases List.mem_cons.1 hpq with rfl | hpq'
          · exact Or.inl (Or.inr ⟨hq.1, hq.2.1, hq.2.2⟩)
          · exact Or.inr ⟨pq, hpq', hq⟩

/-! ## Membership tests of the sweep -/

lemma has_power_iff (periods : List (ℤ × ℤ)) (x : ℤ) :
    has_power periods x = true ↔ covers periods x := by
  unfold has_power covers
  simp

lemma all_have_power_iff (schedules : List Schedule) (x : ℤ) :
    all_have_power schedules x = true ↔
      ∀ sc ∈ schedules, covers (get_electricity_periods sc.outages) x := by
  unfold all_have_power
  simp [List.all_eq_true, has_power_iff]

/-- Sampling transfer: inside an adjacent boundary gap, a user's power
status at any minute agrees with the status at the gap's left end. -/
lemma covers_sample (schedules : List Schedule) (sc : Schedule) (hsc : sc ∈ schedules)
    (pq : ℤ × ℤ) (hpq : pq ∈ (all_points schedules).zip (all_points schedules).tail)
    (m : ℤ) (hm1 : pq.1 ≤ m) (hm2 : m < pq.2) :
    covers (get_electricity_periods sc.outages) pq.1 ↔
      covers (get_electricity_periods sc.outages) m := by
  unfold covers
  have hiff : ∀ w ∈ get_electricity_periods sc.outages,
      ((w.1 ≤ pq.1 ∧ pq.1 < w.2) ↔ (w.1 ≤ m ∧ m < w.2)) := by
    intro w hw
    refine sample_iff _ (all_points_sorted schedules) pq hpq m hm1 hm2 w.1 w.2 ?_ ?_
    · exact mem_all_points.2 (Or.inr (Or.inr ⟨sc, hsc, w, hw, Or.inl rfl⟩))
    · exact mem_all_points.2 (Or.inr (Or.inr ⟨sc, hsc, w, hw, Or.inr rfl⟩))
  constructor
  · rintro ⟨w, hw, hwm⟩
    exact ⟨w, hw, (hiff w hw).1 hwm⟩
  · rintro ⟨w, hw, hwm⟩
    exact ⟨w, hw, (hiff w hw).2 hwm⟩

/-- C1: for at least two well-formed entries, the intersection engine
covers a minute of the day iff every user's availability windows cover
it, and its output periods are non-degenerate, sorted ascending,
pairwise disjoint, and maximal (consecutive periods never touch,
expressed by `Pairwise (fun a b => a.2 < b.1)`). -/
theorem find_common_correct (schedules : List Schedule)
    (h2 : 2 ≤ schedules.length)
    (_hwf : ∀ sc ∈ schedules, ∀ p ∈ get_outage_intervals sc.outages, wfI p)
    (_hdisj : ∀ sc ∈ schedules, (get_outage_intervals sc.outages).Pairwise disjI) :
    (∀ m : ℤ, 0 ≤ m → m < 1440 →
      (covers (find_common_electricity_periods schedules).1 m ↔
        ∀ sc ∈ schedules, covers (get_electricity_periods sc.outages) m)) ∧
    (∀ p ∈ (find_common_electricity_periods schedules).1, p.1 < p.2) ∧
    (find_common_electricity_periods schedules).1.Pairwise (fun a b => a.2 < b.1) := by
  clear _hwf _hdisj
  rcases schedules with _ | ⟨a, rest⟩
  · simp at h2
  rcases rest with _ | ⟨b, rest'⟩
  · simp at h2
  set schedules := a :: b :: rest' with hsch
  have hfst : (find_common_electricity_periods schedules).1 = common_sweep schedules := rfl
  have hsweep := sweep_foldl (all_have_power schedules) (all_points schedules)
    (all_points_sorted schedules) [] (by simp) (by simp) (by simp)
  have hcs : common_sweep schedules =
      (((all_points schedules).zip (all_points schedules).tail).foldl
        (sweep_step (all_have_power schedules)) []).reverse := rfl
  refine ⟨?_, ?_, ?_⟩
  · intro m hm0 hm1440
    rw [hfst, hcs, covers_reverse, hsweep.2.2 m]
    simp only [covers_nil, false_or]
    constructor
    · rintro ⟨pq, hpq, hP, hq1, hq2⟩ sc hsc
      exact (covers_sample schedules sc hsc pq hpq m hq1 hq2).1
        ((all_have_power_iff schedules pq.1).1 hP sc hsc)
    · intro hall
      have h0 : (0 : ℤ) ∈ all_points schedules := mem_all_points.2 (Or.inl rfl)
      have h1440 : (24 * 60 : ℤ) ∈ all_points schedules :=
        mem_all_points.2 (Or.inr (Or.inl rfl))
      obtain ⟨pq, hpq, hq1, hq2⟩ := exists_gap (all_points schedules)
        (all_points_sorted schedules) m ⟨0, h0, hm0⟩ ⟨24 * 60, h1440, by omega⟩
      refine ⟨pq, hpq, ?_, hq1, hq2⟩
      refine (all_have_power_iff schedules pq.1).2 ?_
      intro sc hsc
      exact (covers_sample schedules sc hsc pq hpq m hq1 hq2).2 (hall sc hsc)
  · rw [hfst, hcs]
    intro p hp
    exact hsweep.1 p (List.mem_reverse.1 hp)
  · rw [hfst, hcs, List.pairwise_reverse]
    exact hsweep.2.1

/-! ## Concrete inputs used in witnesses and counterexamples -/

/-- A well-formed one-outage list: outage from 01:00 to 02:00. -/
def demoOutages : List Outage := [⟨1, 2⟩]

lemma demo_outage_intervals : get_outage_intervals demoOutages = [(60, 120)] := by
  unfold demoOutages get_outage_intervals
  rw [List.map_cons, List.map_nil]
  norm_num [convert_eq_floor]

lemma demo_elec : get_electricity_periods demoOutages = [(0, 60), (120, 1440)] := by
  rw [get_electricity_periods_eq_invert, demo_outage_intervals]
  decide

/-- Witness for C2 at minute `100` of `demoOutages`. -/
theorem availability_partition_witness :
    covers (get_outage_intervals demoOutages) 100 ↔
      ¬ covers (get_electricity_periods demoOutages) 100 :=
  (availability_partition demoOutages
    (by rw [demo_outage_intervals]; decide)
    (by rw [demo_outage_intervals]; decide)).1 100 (by decide) (by decide)

/-- A malformed outage list: in minutes its intervals are
`(0, 50), (60, 10), (70, 200)` — the second has `start > end`. -/
def badOutages : List Outage := [⟨0, 5/6⟩, ⟨1, 1/6⟩, ⟨7/6, 10/3⟩]

lemma bad_outage_intervals :
    get_outage_intervals badOutages = [(0, 50), (60, 10), (70, 200)] := by
  unfold badOutages get_outage_intervals
  norm_num [convert_eq_floor]
  decide

lemma bad_elec : get_electricity_periods badOutages = [(50, 60), (10, 70), (200, 1440)] := by
  rw [get_electricity_periods_eq_invert, bad_outage_intervals]
  decide

/-- C8 counterexample: on the malformed list `badOutages` the Availability
Deriver returns `[(50, 60), (10, 70), (200, 1440)]`, which is neither
sorted ascending by start nor pairwise non-overlapping. -/
theorem get_electricity_periods_not_wf_on_malformed :
    ¬ ((get_electricity_periods badOutages).Pairwise (fun a b => a.1 ≤ b.1) ∧
       (get_electricity_periods badOutages).Pairwise disjI ∧
       ∀ w ∈ get_electricity_periods badOutages, w.1 < w.2) := by
  rw [bad_elec]
  decide

/-- C8 (amended): on every input the emitted windows have positive
length; and when every converted outage interval is proper
(`start < end`) the windows are additionally sorted ascending by start
and pairwise non-overlapping. -/
theorem get_electricity_periods_wf (outages : List Outage) :
    (∀ w ∈ get_electricity_periods outages, w.1 < w.2) ∧
    ((∀ p ∈ get_outage_intervals outages, p.1 < p.2) →
      (get_electricity_periods outages).Pairwise (fun a b => a.1 ≤ b.1) ∧
      (get_electricity_periods outages).Pairwise disjI) := by
  rw [get_electricity_periods_eq_invert]
  refine ⟨invertFrom_pos _ 0, fun hwf => ?_⟩
  have hgap := invertFrom_pairwise _ 0 (get_outage_intervals_sorted outages) hwf
  have hpos := invertFrom_pos (get_outage_intervals outages) 0
  constructor
  · refine hgap.imp_of_mem ?_
    intro a b ha hb hab
    have := hpos a ha
    omega
  · refine hgap.imp ?_
    intro a b hab
    unfold disjI
    omega

/-- Witness for C8's amended conditional part on `demoOutages`. -/
theorem get_electricity_periods_wf_witness :
    (get_electricity_periods demoOutages).Pairwise (fun a b => a.1 ≤ b.1) ∧
    (get_electricity_periods demoOutages).Pairwise disjI :=
  (get_electricity_periods_wf demoOutages).2 (by rw [demo_outage_intervals]; decide)

/-- User A of the spec's end-to-end scenario: outages
`[1.5–5], [12–15.5], [22.5–24]` hours. -/
def userA : Schedule := ⟨1, "A", [⟨1.5, 5⟩, ⟨12, 15.5⟩, ⟨22.5, 24⟩]⟩

/-- User B of the spec's end-to-end scenario: outages
`[0–1.5], [8.5–12], [19–22.5]` hours. -/
def userB : Schedule := ⟨2, "B", [⟨0, 1.5⟩, ⟨8.5, 12⟩, ⟨19, 22.5⟩]⟩

lemma intervals_A :
    get_outage_intervals userA.outages = [(90, 300), (720, 930), (1350, 1440)] := by
  unfold userA get_outage_intervals
  norm_num [convert_eq_floor]
  decide

lemma intervals_B :
    get_outage_intervals userB.outages = [(0, 90), (510, 720), (1140, 1350)] := by
  unfold userB get_outage_intervals
  norm_num [convert_eq_floor]
  decide

lemma elec_A : get_electricity_periods userA.outages = [(0, 90), (300, 720), (930, 1350)] := by
  rw [get_electricity_periods_eq_invert, intervals_A]
  decide

lemma elec_B : get_electricity_periods userB.outages = [(90, 510), (720, 1140), (1350, 1440)] := by
  rw [get_electricity_periods_eq_invert, intervals_B]
  decide

/-- C6: on the two-user scenario of the spec the intersection engine
returns exactly `[(300, 510), (930, 1140)]`, in that order. -/
theorem two_user_scenario :
    (find_common_electricity_periods [userA, userB]).1 = [(300, 510), (930, 1140)] := by
  have hfst : (find_common_electricity_periods [userA, userB]).1 =
      common_sweep [userA, userB] := rfl
  have hP : all_have_power [userA, userB] =
      fun x => has_power [(0, 90), (300, 720), (930, 1350)] x &&
        has_power [(90, 510), (720, 1140), (1350, 1440)] x := by
    funext x
    simp [all_have_power, elec_A, elec_B]
  have hpts : all_points [userA, userB] =
      [0, 90, 300, 510, 720, 930, 1140, 1350, 1440] := by
    unfold all_points
    simp only [List.flatMap_cons, List.flatMap_nil, elec_A, elec_B, List.append_nil]
    decide
  rw [hfst]
  unfold common_sweep
  rw [hpts, hP]
  decide

/-- Witness for C1 on the two-user scenario at minute `400`. -/
theorem find_common_correct_witness :
    covers (find_common_electricity_periods [userA, userB]).1 400 ↔
      ∀ sc ∈ [userA, userB], covers (get_electricity_periods sc.outages) 400 :=
  (find_common_correct [userA, userB] (by decide)
    (by
      intro sc hsc
      rcases List.mem_cons.1 hsc with rfl | hsc'
      · rw [intervals_A]; decide
      · rcases List.mem_singleton.1 hsc' with rfl
        rw [intervals_B]; decide)
    (by
      intro sc hsc
      rcases List.mem_cons.1 hsc with rfl | hsc'
      · rw [intervals_A]; decide
      · rcases List.mem_singleton.1 hsc' with rfl
        rw [intervals_B]; decide)).1 400 (by decide) (by decide)

/-! ## The exclusion analyzer -/

/-- Every emitted exclusion record arises from one common period of the
others and one outage interval of the excluded user, with the record's
fields computed from their overlap. -/
lemma mem_exclusion_records {ex : Schedule} {cp eo : List (ℤ × ℤ)} {r : NMinusOneRecord}
    (hr : r ∈ exclusion_records ex cp eo) :
    ∃ w ∈ cp, ∃ p ∈ eo, max w.1 p.1 < min w.2 p.2 ∧
      r = { missing_user_id := ex.user_id
            missing_username := ex.username
            start := max w.1 p.1
            end_ := min w.2 p.2
            start_hhmm := minutes_to_hhmm (max w.1 p.1)
            end_hhmm := minutes_to_hhmm (min w.2 p.2)
            duration_minutes := min w.2 p.2 - max w.1 p.1 } := by
  unfold exclusion_records at hr
  rw [List.mem_flatMap] at hr
  obtain ⟨w, hw, hr⟩ := hr
  rw [List.mem_flatMap] at hr
  obtain ⟨p, hp, hr⟩ := hr
  dsimp only at hr
  by_cases hov : max w.1 p.1 < min w.2 p.2
  · rw [if_pos hov] at hr
    rcases List.mem_singleton.1 hr with rfl
    exact ⟨w, hw, p, hp, hov, rfl⟩
  · rw [if_neg hov] at hr
    cases hr

/-- C10: every record emitted by `find_n_minus_one_periods` is
internally consistent: `duration_minutes` equals `end - start`, the
interval is non-empty, and both `HH:MM` fields agree with
`minutes_to_hhmm` applied to the endpoints. -/
theorem n_minus_one_records_consistent (schedules : List Schedule) :
    ∀ r ∈ find_n_minus_one_periods schedules,
      r.duration_minutes = r.end_ - r.start ∧
      r.start < r.end_ ∧
      r.start_hhmm = minutes_to_hhmm r.start ∧
      r.end_hhmm = minutes_to_hhmm r.end_ := by
  intro r hr
  unfold find_n_minus_one_periods at hr
  split at hr
  · cases hr
  · rw [List.mem_flatMap] at hr
    obtain ⟨ie, hie, hr⟩ := hr
    obtain ⟨w, hw, p, hp, hov, rfl⟩ := mem_exclusion_records hr
    exact ⟨rfl, hov, rfl, rfl⟩

/-- C4: with at least two well-formed entries, every exclusion record
for excluded user `e` is a non-empty interval contained both in one of
`e`'s outage intervals and in one period of the intersection of the
other `N-1` entries; and with fewer than two entries the analyzer
returns the empty list rather than raising. -/
theorem n_minus_one_consistency (schedules : List Schedule)
    (_h2 : 2 ≤ schedules.length)
    (_hwf : ∀ sc ∈ schedules, ∀ p ∈ get_outage_intervals sc.outages, wfI p) :
    (∀ r ∈ find_n_minus_one_periods schedules,
      r.start < r.end_ ∧
      ∃ i, ∃ sc, schedules[i]? = some sc ∧ sc.user_id = r.missing_user_id ∧
        (∃ p ∈ get_outage_intervals sc.outages, p.1 ≤ r.start ∧ r.end_ ≤ p.2) ∧
        (∃ w ∈ (find_common_electricity_periods
            (schedules.take i ++ schedules.drop (i + 1))).1,
          w.1 ≤ r.start ∧ r.end_ ≤ w.2)) ∧
    (∀ s : List Schedule, s.length < 2 → find_n_minus_one_periods s = []) := by
  constructor
  · intro r hr
    unfold find_n_minus_one_periods at hr
    split at hr
    · cases hr
    · rw [List.mem_flatMap] at hr
      obtain ⟨ie, hie, hr⟩ := hr
      obtain ⟨w, hw, p, hp, hov, rfl⟩ := mem_exclusion_records hr
      refine ⟨hov, ie.1, ie.2, List.mem_enum_iff_getElem?.1 hie, rfl, ?_, ?_⟩
      · exact ⟨p, hp, le_max_right _ _, min_le_right _ _⟩
      · exact ⟨w, hw, le_max_left _ _, min_le_left _ _⟩
  · intro s hs
    unfold find_n_minus_one_periods
    rw [if_pos hs]

/-- First user of the exclusion demo: one outage 00:00–01:00. -/
def demoU1 : Schedule := ⟨1, "a", [⟨0, 1⟩]⟩

/-- Second user of the exclusion demo: no outages. -/
def demoU2 : Schedule := ⟨2, "b", []⟩

def demoS : List Schedule := [demoU1, demoU2]

lemma demoU1_intervals : get_outage_intervals demoU1.outages = [(0, 60)] := by
  unfold demoU1 get_outage_intervals
  norm_num [convert_eq_floor]

lemma demoU1_elec : get_electricity_periods demoU1.outages = [(60, 1440)] := by
  rw [get_electricity_periods_eq_invert, demoU1_intervals]
  decide

/-- The single record the exclusion analyzer emits on `demoS`. -/
def demoRec : NMinusOneRecord :=
  { missing_user_id := 1
    missing_username := "a"
    start := 0
    end_ := 60
    start_hhmm := minutes_to_hhmm 0
    end_hhmm := minutes_to_hhmm 60
    duration_minutes := 60 }

lemma demoS_records : find_n_minus_one_periods demoS = [demoRec] := by
  unfold find_n_minus_one_periods
  rw [if_neg (by decide)]
  have henum : demoS.enum = [(0, demoU1), (1, demoU2)] := rfl
  rw [henum, List.flatMap_cons, List.flatMap_cons, List.flatMap_nil]
  have hcp1 : (find_common_electricity_periods (demoS.take 0 ++ demoS.drop (0 + 1))).1 =
      [(0, 1440)] := rfl
  have hcp2 : (find_common_electricity_periods (demoS.take 1 ++ demoS.drop (1 + 1))).1 =
      get_electricity_periods demoU1.outages := rfl
  dsimp only
  rw [hcp1, hcp2, demoU1_elec, demoU1_intervals]
  have h2 : get_outage_intervals demoU2.outages = [] := rfl
  rw [h2]
  rfl

/-- Witness for C10 at the one record of `demoS`. -/
theorem n_minus_one_records_consistent_witness :
    demoRec.duration_minutes = demoRec.end_ - demoRec.start ∧
    demoRec.start < demoRec.end_ ∧
    demoRec.start_hhmm = minutes_to_hhmm demoRec.start ∧
    demoRec.end_hhmm = minutes_to_hhmm demoRec.end_ :=
  n_minus_one_records_consistent demoS demoRec
    (by rw [demoS_records]; exact List.mem_singleton.2 rfl)

/-- Witness for C4 at the one record of `demoS`. -/
theorem n_minus_one_consistency_witness :
    demoRec.start < demoRec.end_ ∧
    ∃ i, ∃ sc, demoS[i]? = some sc ∧ sc.user_id = demoRec.missing_user_id ∧
      (∃ p ∈ get_outage_intervals sc.outages, p.1 ≤ demoRec.start ∧ demoRec.end_ ≤ p.2) ∧
      (∃ w ∈ (find_common_electricity_periods
          (demoS.take i ++ demoS.drop (i + 1))).1,
        w.1 ≤ demoRec.start ∧ demoRec.end_ ≤ w.2) :=
  (n_minus_one_consistency demoS (by decide)
    (by
      intro sc hsc
      rcases List.mem_cons.1 hsc with rfl | hsc'
      · rw [demoU1_intervals]; decide
      · rcases List.mem_singleton.1 hsc' with rfl
        decide)).1 demoRec
    (by rw [demoS_records]; exact List.mem_singleton.2 rfl)

end TSG
